import Mathlib

/-!
# Quadrature encoder decoder with debounce and low-pass filter

A shallow embedding of `Encoder.cpp`: the interrupt service routine `encoderISR`
(debounce gate, exponential smoothing of channel A, threshold-crossing edge
detection, direction from channel B) and the reporting `loop`.

Modelling conventions.

* `unsigned long` is the 32-bit unsigned word of the target: timestamps are
  natural numbers and the subtraction in the debounce test wraps modulo `2^32`.
* `long` is the 32-bit signed word of the target: `encoderPosition` is an integer
  in `[LONG_MIN, LONG_MAX]` and `encoderPosition++` / `encoderPosition--` wrap
  modulo `2^32` in two's complement, as the compiled code does (`wrapLong`).
* `float` arithmetic is "exact operation, then rounding": every definition takes
  the rounding function `fl : ℚ → ℚ` of the float format as a parameter.
  `fl = id` is exact arithmetic.  The comparisons against `0.5` are exact.
  A theorem stated for every `fl` does not depend on how the filter rounds; a
  theorem stated for `id` is a statement about exact arithmetic only.
* One invocation of the routine reads the clock and the two pins once; these
  three values are the `Reading` given to the model.
-/

namespace Encoder

/-! ## Data model -/

/-- Number of values of an `unsigned long` on the target (32 bits). -/
def ULONG_RANGE : Nat := 4294967296

/-- The C++ expression `a - b` on two `unsigned long` values: wraps modulo `2^32`. -/
def usub (a b : Nat) : Nat := (a % ULONG_RANGE + ULONG_RANGE - b % ULONG_RANGE) % ULONG_RANGE

/-- The largest value of a `long` on the target (32 bits). -/
def LONG_MAX : Int := 2147483647

/-- The smallest value of a `long` on the target (32 bits). -/
def LONG_MIN : Int := -2147483648

/-- The value a 32-bit `long` holds after an arithmetic result `z`: `z` reduced modulo
`2^32` into `[LONG_MIN, LONG_MAX]` (two's complement), so `LONG_MAX + 1` becomes
`LONG_MIN` and `LONG_MIN - 1` becomes `LONG_MAX`. -/
def wrapLong (z : Int) : Int := (z + 2147483648) % 4294967296 - 2147483648

/-- The constant `const unsigned long debounceInterval = 50`. -/
def debounceInterval : Nat := 50

/-- The constant `const float alpha = 0.1`, rounded to the float format. -/
def alpha (fl : ℚ → ℚ) : ℚ := fl (1 / 10)

/-- Conversion of a `bool` to a number, as C++ does in arithmetic and comparisons. -/
def ofBool (b : Bool) : ℚ := if b then 1 else 0

/-- The global variables written by `encoderISR`. -/
structure Decoder where
  encoderPosition : Int
  lastStateA : Bool
  filteredStateA : ℚ
  lastInterruptTime : Nat
deriving DecidableEq

/-- What one invocation of `encoderISR` reads from the hardware: `micros()`,
`digitalRead(encoderPinA)` and `digitalRead(encoderPinB)`. -/
structure Reading where
  micros : Nat
  pinA : Bool
  pinB : Bool
deriving DecidableEq

/-- Properties of the rounding of a binary floating-point format (round to nearest, or any
other monotone rounding) used where a result does not depend on the arithmetic being exact:
rounding is monotone and the representable numbers 0, 1/2 and 1 are not changed by it. -/
structure IsRounding (fl : ℚ → ℚ) : Prop where
  mono : Monotone fl
  zero : fl 0 = 0
  half : fl (1 / 2) = 1 / 2
  one : fl 1 = 1

/-- The initial values of the globals. -/
def initial : Decoder :=
  { encoderPosition := 0, lastStateA := false, filteredStateA := 0, lastInterruptTime := 0 }

/-! ## The interrupt service routine -/

/-- The debounce test `interruptTime - lastInterruptTime > debounceInterval`. -/
def gateOpen (s : Decoder) (hw : Reading) : Bool :=
  decide (usub hw.micros s.lastInterruptTime > debounceInterval)

/-- The filter update `alpha * currentStateA + (1 - alpha) * filteredStateA`. -/
def lowPass (fl : ℚ → ℚ) (currentStateA : Bool) (filteredStateA : ℚ) : ℚ :=
  fl (fl (alpha fl * ofBool currentStateA) + fl (fl (1 - alpha fl) * filteredStateA))

/-- The edge test `filteredStateA > 0.5 && lastStateA <= 0.5`. -/
def risingEdge (filteredStateA : ℚ) (lastStateA : Bool) : Bool :=
  decide (filteredStateA > 1 / 2) && decide (ofBool lastStateA ≤ 1 / 2)

/-- One invocation of `encoderISR`. -/
def encoderISR (fl : ℚ → ℚ) (s : Decoder) (hw : Reading) : Decoder :=
  let interruptTime := hw.micros
  if gateOpen s hw then
    let currentStateA := hw.pinA
    let currentStateB := hw.pinB
    let filteredStateA := lowPass fl currentStateA s.filteredStateA
    let encoderPosition :=
      if risingEdge filteredStateA s.lastStateA then
        if currentStateB = false then wrapLong (s.encoderPosition + 1)
        else wrapLong (s.encoderPosition - 1)
      else s.encoderPosition
    { encoderPosition := encoderPosition
      lastStateA := decide (filteredStateA > 1 / 2)
      filteredStateA := filteredStateA
      lastInterruptTime := interruptTime }
  else
    { s with lastInterruptTime := interruptTime }

/-- The state after a sequence of invocations, oldest first. -/
def run (fl : ℚ → ℚ) (s : Decoder) (hws : List Reading) : Decoder :=
  hws.foldl (encoderISR fl) s

/-- The state after the first `n` invocations of a sequence. -/
def stateAfter (fl : ℚ → ℚ) (s : Decoder) (hws : List Reading) (n : Nat) : Decoder :=
  run fl s (hws.take n)

/-- The remembered edge state agrees with the filtered value. -/
def Consistent (s : Decoder) : Prop :=
  s.lastStateA = decide (s.filteredStateA > 1 / 2)

/-- A decoder state that some run of invocations from the initial state produces. -/
def Reachable (fl : ℚ → ℚ) (s : Decoder) : Prop :=
  ∃ hws : List Reading, run fl initial hws = s

/-- Reading `b` is taken at most `debounceInterval` µs after reading `a`: its timestamp is
the timestamp of `a` plus an elapsed time `d ≤ 50`, as a 32-bit clock value. -/
def Within (a b : Reading) : Prop :=
  ∃ d : Nat, d ≤ debounceInterval ∧ b.micros = (a.micros + d) % ULONG_RANGE

/-- Ten readings 5 µs apart, channel A toggling, the first one long after time 0. -/
def burstRun : List Reading :=
  [⟨1000, true, false⟩, ⟨1005, false, false⟩, ⟨1010, true, false⟩, ⟨1015, false, false⟩,
   ⟨1020, true, false⟩, ⟨1025, false, false⟩, ⟨1030, true, false⟩, ⟨1035, false, false⟩,
   ⟨1040, true, false⟩, ⟨1045, false, false⟩]

/-- Three readings with channel A stuck HIGH, 100 µs apart, channel B varying. -/
def stuckRun : List Reading :=
  [⟨700, true, false⟩, ⟨800, true, true⟩, ⟨900, true, true⟩]

/-- A sample run used to exercise the theorems: eight accepted HIGH samples of channel A,
two accepted LOW samples and one more HIGH sample, 100 µs apart, channel B LOW. -/
def crossingRun : List Reading :=
  [⟨100, true, false⟩, ⟨200, true, false⟩, ⟨300, true, false⟩, ⟨400, true, false⟩,
   ⟨500, true, false⟩, ⟨600, true, false⟩, ⟨700, true, false⟩, ⟨800, true, false⟩,
   ⟨900, false, false⟩, ⟨1000, false, false⟩, ⟨1100, true, false⟩]

/-! ## The reporting loop -/

/-- The variable `static long lastPosition` of `loop` together with the lines
written to the serial port so far (oldest first). -/
structure Reporter where
  lastPosition : Int
  serial : List Int
deriving DecidableEq

/-- The reporter before the first iteration. -/
def Reporter.start : Reporter := { lastPosition := 0, serial := [] }

/-- One iteration of `loop`; `encoderPosition` is the value of the shared counter
copied into `position` inside the critical section. -/
def loop (r : Reporter) (encoderPosition : Int) : Reporter :=
  let position := encoderPosition
  if position ≠ r.lastPosition then
    { lastPosition := position, serial := r.serial ++ [position] }
  else r

/-- Consecutive iterations of `loop`, one per snapshot. -/
def loops (r : Reporter) (snapshots : List Int) : Reporter :=
  snapshots.foldl loop r

/-- The elements of a list that differ from their immediate predecessor, where `prev` is
the predecessor of the first element. -/
def keepChanges (prev : Int) : List Int → List Int
  | [] => []
  | x :: xs => if x = prev then keepChanges x xs else x :: keepChanges x xs

/-- The specification of the reported lines, in the words of the claim: the list with every
element equal to its immediate predecessor deleted (the first element has no predecessor
and stays). -/
def dropRepeats : List Int → List Int
  | [] => []
  | a :: l => a :: keepChanges a l

/-- A state that has counted under a stuck channel A reading `lvl`: the edge state is true,
the filtered value is above 0.5 and another sample of `lvl` would not lower it. -/
def Saturated (fl : ℚ → ℚ) (lvl : Bool) (s : Decoder) : Prop :=
  s.lastStateA = true ∧ 1 / 2 < s.filteredStateA ∧
    s.filteredStateA ≤ lowPass fl lvl s.filteredStateA

/-- Timestamp `t'` is more than `debounceInterval` µs after timestamp `t`: it is `t` plus
an elapsed time `d > 50`, as a 32-bit clock value. -/
def Spaced (t t' : Nat) : Prop :=
  ∃ d : Nat, debounceInterval < d ∧ d < ULONG_RANGE ∧ t' = (t + d) % ULONG_RANGE

/-- The readings produced by a CHANGE-triggered interrupt on a clean square wave, from
reading number `k` on (reading 0 is the first HIGH sample) after a previous timestamp `t`:
each reading is more than 50 µs after the one before, channel A reads HIGH at even and LOW
at odd readings, and channel B reads LOW at every HIGH sample. -/
def SquareWave : Nat → Nat → List Reading → Prop
  | _, _, [] => True
  | k, t, hw :: rest =>
    Spaced t hw.micros ∧ hw.pinA = decide (k % 2 = 0) ∧ (hw.pinA = true → hw.pinB = false) ∧
      SquareWave (k + 1) hw.micros rest

/-- The filtered value after `k` readings of a square wave in exact arithmetic, in closed
form: `(k + 1) / 2` of the readings were HIGH samples. -/
def idealFiltered (k : Nat) : ℚ :=
  (if k % 2 = 0 then 9 / 19 else 10 / 19) * (1 - (81 / 100) ^ ((k + 1) / 2))

/-- The decoder state after `k` readings of a square wave, up to the timestamp: the
position is the number of HIGH samples beyond the 14th, as stored in a 32-bit `long`. -/
def Ideal (k : Nat) (s : Decoder) : Prop :=
  s.filteredStateA = idealFiltered k ∧
  s.lastStateA = decide (s.filteredStateA > 1 / 2) ∧
  s.encoderPosition = wrapLong (max 0 ((((k + 1) / 2 : Nat) : Int) - 14))

/-- A square wave of 16 periods sampled at both edges: 31 readings 100 µs apart, channel A
alternating from HIGH, channel B LOW at the HIGH samples and varying at the LOW ones. -/
def squareWaveRun : List Reading :=
  [⟨100, true, false⟩, ⟨200, false, true⟩, ⟨300, true, false⟩, ⟨400, false, false⟩,
   ⟨500, true, false⟩, ⟨600, false, true⟩, ⟨700, true, false⟩, ⟨800, false, false⟩,
   ⟨900, true, false⟩, ⟨1000, false, true⟩, ⟨1100, true, false⟩, ⟨1200, false, false⟩,
   ⟨1300, true, false⟩, ⟨1400, false, true⟩, ⟨1500, true, false⟩, ⟨1600, false, false⟩,
   ⟨1700, true, false⟩, ⟨1800, false, true⟩, ⟨1900, true, false⟩, ⟨2000, false, false⟩,
   ⟨2100, true, false⟩, ⟨2200, false, true⟩, ⟨2300, true, false⟩, ⟨2400, false, false⟩,
   ⟨2500, true, false⟩, ⟨2600, false, true⟩, ⟨2700, true, false⟩, ⟨2800, false, false⟩,
   ⟨2900, true, false⟩, ⟨3000, false, true⟩, ⟨3100, true, false⟩]

/-- The number of invocations of a run that pass the debounce gate. -/
def accepted (fl : ℚ → ℚ) : Decoder → List Reading → Nat
  | _, [] => 0
  | s, hw :: rest => (if gateOpen s hw then 1 else 0) + accepted fl (encoderISR fl s hw) rest

/-! ## Basic facts about one invocation -/

theorem encoderISR_open (fl : ℚ → ℚ) (s : Decoder) (hw : Reading) (h : gateOpen s hw = true) :
    encoderISR fl s hw =
      { encoderPosition :=
          if risingEdge (lowPass fl hw.pinA s.filteredStateA) s.lastStateA then
            if hw.pinB = false then wrapLong (s.encoderPosition + 1)
            else wrapLong (s.encoderPosition - 1)
          else s.encoderPosition
        lastStateA := decide (lowPass fl hw.pinA s.filteredStateA > 1 / 2)
        filteredStateA := lowPass fl hw.pinA s.filteredStateA
        lastInterruptTime := hw.micros } := by
  simp [encoderISR, h]

theorem encoderISR_closed (fl : ℚ → ℚ) (s : Decoder) (hw : Reading) (h : gateOpen s hw = false) :
    encoderISR fl s hw = { s with lastInterruptTime := hw.micros } := by
  simp [encoderISR, h]

/-- A value inside the range of a `long` is stored unchanged. -/
theorem wrapLong_of_range (z : Int) (hlo : LONG_MIN ≤ z) (hhi : z ≤ LONG_MAX) :
    wrapLong z = z := by
  unfold wrapLong LONG_MIN LONG_MAX at *
  omega

/-- A stored value always lies in the range of a `long`. -/
theorem wrapLong_range (z : Int) : LONG_MIN ≤ wrapLong z ∧ wrapLong z ≤ LONG_MAX := by
  unfold wrapLong LONG_MIN LONG_MAX
  omega

/-- Storing an intermediate result does not change a later increment or decrement. -/
theorem wrapLong_add (z d : Int) : wrapLong (wrapLong z + d) = wrapLong (z + d) := by
  unfold wrapLong
  omega

/-- An increment or a decrement always changes the stored value. -/
theorem wrapLong_succ_ne (z : Int) : wrapLong (z + 1) ≠ z ∧ wrapLong (z - 1) ≠ z := by
  unfold wrapLong
  omega

/-- The debounce test passes exactly when the wrapped difference exceeds the interval. -/
theorem gateOpen_iff (s : Decoder) (hw : Reading) :
    gateOpen s hw = true ↔ debounceInterval < usub hw.micros s.lastInterruptTime := by
  simp [gateOpen]

/-- The edge test fires exactly when the filtered value is above 0.5 and the remembered
edge state is false. -/
theorem risingEdge_iff (f : ℚ) (l : Bool) :
    risingEdge f l = true ↔ 1 / 2 < f ∧ l = false := by
  cases l <;> simp [risingEdge, ofBool]
  norm_num

/-- Exact arithmetic is a rounding. -/
theorem isRounding_id : IsRounding id :=
  ⟨monotone_id, rfl, rfl, rfl⟩

/-- The wrapped difference recovers the true elapsed time `d` when `d` fits a word, also
when the clock wrapped in between. -/
theorem usub_elapsed (last d : Nat) (hd : d < ULONG_RANGE) :
    usub ((last + d) % ULONG_RANGE) last = d := by
  unfold usub ULONG_RANGE at *
  omega

/-- Without wraparound the wrapped difference is the ordinary difference. -/
theorem usub_of_le (t last : Nat) (hle : last ≤ t) (ht : t < ULONG_RANGE) :
    usub t last = t - last := by
  unfold usub ULONG_RANGE at *
  omega

/-! ## Runs -/

theorem run_nil (fl : ℚ → ℚ) (s : Decoder) : run fl s [] = s := rfl

theorem run_cons (fl : ℚ → ℚ) (s : Decoder) (hw : Reading) (hws : List Reading) :
    run fl s (hw :: hws) = run fl (encoderISR fl s hw) hws := rfl

theorem run_snoc (fl : ℚ → ℚ) (s : Decoder) (hws : List Reading) (hw : Reading) :
    run fl s (hws ++ [hw]) = encoderISR fl (run fl s hws) hw := by
  simp [run, List.foldl_append]

theorem stateAfter_zero (fl : ℚ → ℚ) (s : Decoder) (hws : List Reading) :
    stateAfter fl s hws 0 = s := rfl

/-- Invocation number `i` (counting from 0) takes the state after `i` invocations to the
state after `i + 1`. -/
theorem stateAfter_succ (fl : ℚ → ℚ) (s : Decoder) (hws : List Reading) (i : Nat)
    (hw : Reading) (h : hws[i]? = some hw) :
    stateAfter fl s hws (i + 1) = encoderISR fl (stateAfter fl s hws i) hw := by
  unfold stateAfter
  rw [List.take_succ, h]
  exact run_snoc fl s _ hw

theorem stateAfter_cons_succ (fl : ℚ → ℚ) (s : Decoder) (hw : Reading) (hws : List Reading)
    (n : Nat) :
    stateAfter fl s (hw :: hws) (n + 1) = stateAfter fl (encoderISR fl s hw) hws n := rfl

theorem consistent_initial : Consistent initial := by
  simp [Consistent, initial]

theorem consistent_encoderISR (fl : ℚ → ℚ) (s : Decoder) (hw : Reading) (h : Consistent s) :
    Consistent (encoderISR fl s hw) := by
  cases hg : gateOpen s hw
  · rw [encoderISR_closed fl s hw hg]
    exact h
  · rw [encoderISR_open fl s hw hg]
    rfl

theorem consistent_run (fl : ℚ → ℚ) (hws : List Reading) :
    ∀ s : Decoder, Consistent s → Consistent (run fl s hws) := by
  induction hws with
  | nil => exact fun s h => h
  | cons hw hws ih => exact fun s h => ih _ (consistent_encoderISR fl s hw h)

theorem consistent_stateAfter (fl : ℚ → ℚ) (hws : List Reading) (n : Nat) :
    Consistent (stateAfter fl initial hws n) :=
  consistent_run fl _ initial consistent_initial

/-- An invocation that changes the position passed the gate and saw a rising edge. -/
theorem changed_imp_edge (fl : ℚ → ℚ) (s : Decoder) (hw : Reading)
    (h : (encoderISR fl s hw).encoderPosition ≠ s.encoderPosition) :
    gateOpen s hw = true ∧ s.lastStateA = false ∧
      1 / 2 < (encoderISR fl s hw).filteredStateA ∧ (encoderISR fl s hw).lastStateA = true := by
  cases hg : gateOpen s hw
  · rw [encoderISR_closed fl s hw hg] at h
    exact absurd rfl h
  · rw [encoderISR_open fl s hw hg] at h ⊢
    cases he : risingEdge (lowPass fl hw.pinA s.filteredStateA) s.lastStateA
    · simp [he] at h
    · have := (risingEdge_iff _ _).1 he
      exact ⟨rfl, this.2, this.1, by simpa using this.1⟩

/-- An invocation after which the filtered value is above 0.5, in a state whose remembered
edge state is already true, leaves the position alone. -/
theorem unchanged_of_last (fl : ℚ → ℚ) (s : Decoder) (hw : Reading)
    (h : s.lastStateA = true) :
    (encoderISR fl s hw).encoderPosition = s.encoderPosition := by
  by_contra hne
  have := (changed_imp_edge fl s hw hne).2.1
  rw [h] at this
  exact Bool.noConfusion this

/-- An accepted invocation that sees a rising edge moves the position by one unit, in the
direction given by channel B. -/
theorem position_of_edge (fl : ℚ → ℚ) (s : Decoder) (hw : Reading)
    (hgate : gateOpen s hw = true)
    (hedge : risingEdge (lowPass fl hw.pinA s.filteredStateA) s.lastStateA = true) :
    (encoderISR fl s hw).encoderPosition =
      if hw.pinB = false then wrapLong (s.encoderPosition + 1)
      else wrapLong (s.encoderPosition - 1) := by
  rw [encoderISR_open fl s hw hgate]
  simp [hedge]

/-- Every invocation stores its timestamp. -/
theorem encoderISR_lastInterruptTime (fl : ℚ → ℚ) (s : Decoder) (hw : Reading) :
    (encoderISR fl s hw).lastInterruptTime = hw.micros := by
  cases hg : gateOpen s hw
  · rw [encoderISR_closed fl s hw hg]
  · rw [encoderISR_open fl s hw hg]

/-- One invocation increments the position, decrements it or leaves it alone. -/
theorem encoderISR_position_cases (fl : ℚ → ℚ) (s : Decoder) (hw : Reading) :
    (encoderISR fl s hw).encoderPosition = s.encoderPosition ∨
    (encoderISR fl s hw).encoderPosition = wrapLong (s.encoderPosition + 1) ∨
    (encoderISR fl s hw).encoderPosition = wrapLong (s.encoderPosition - 1) := by
  cases hg : gateOpen s hw
  · rw [encoderISR_closed fl s hw hg]
    exact Or.inl rfl
  · rw [encoderISR_open fl s hw hg]
    cases risingEdge (lowPass fl hw.pinA s.filteredStateA) s.lastStateA <;>
      cases hw.pinB <;> simp

/-- A position that is one of `p`, `p + 1`, `p - 1` as stored in a `long` differs from `p`
by at most 1 when `p` is strictly inside the range of a `long`. -/
theorem abs_le_one_of_cases (p q : Int) (hlo : LONG_MIN < p) (hhi : p < LONG_MAX)
    (h : q = p ∨ q = wrapLong (p + 1) ∨ q = wrapLong (p - 1)) : |q - p| ≤ 1 := by
  have h1 : wrapLong (p + 1) = p + 1 := wrapLong_of_range _ (by omega) (by omega)
  have h2 : wrapLong (p - 1) = p - 1 := wrapLong_of_range _ (by omega) (by omega)
  rw [h1, h2] at h
  rcases h with h | h | h <;> rw [h] <;> simp

/-- One invocation moves a position strictly inside the range of a `long` by at most 1. -/
theorem encoderISR_position_abs (fl : ℚ → ℚ) (s : Decoder) (hw : Reading)
    (hlo : LONG_MIN < s.encoderPosition) (hhi : s.encoderPosition < LONG_MAX) :
    |(encoderISR fl s hw).encoderPosition - s.encoderPosition| ≤ 1 :=
  abs_le_one_of_cases _ _ hlo hhi (encoderISR_position_cases fl s hw)

/-- A reading taken within the debounce interval of the stored timestamp is rejected. -/
theorem gateOpen_within (s : Decoder) (a b : Reading) (hs : s.lastInterruptTime = a.micros)
    (hab : Within a b) : gateOpen s b = false := by
  obtain ⟨d, hd, ht⟩ := hab
  rw [Bool.eq_false_iff, Ne, gateOpen_iff, ht, hs,
    usub_elapsed _ d (lt_of_le_of_lt hd (by decide))]
  exact not_lt.mpr hd

/-- After a reading `a`, a chain of readings each within the debounce interval of the one
before is rejected throughout and leaves the position alone. -/
theorem run_burst_tail (fl : ℚ → ℚ) (rest : List Reading) :
    ∀ (s : Decoder) (a : Reading), s.lastInterruptTime = a.micros → List.Chain Within a rest →
      (run fl s rest).encoderPosition = s.encoderPosition ∧
      ∀ k hw, rest[k]? = some hw → gateOpen (stateAfter fl s rest k) hw = false := by
  induction rest with
  | nil =>
    intro s a _ _
    exact ⟨rfl, fun k hw h => by simp at h⟩
  | cons b rest ih =>
    intro s a hs hchain
    rw [List.chain_cons] at hchain
    have hclosed := gateOpen_within s a b hs hchain.1
    have hstep := encoderISR_closed fl s b hclosed
    obtain ⟨ih1, ih2⟩ := ih (encoderISR fl s b) b (encoderISR_lastInterruptTime fl s b) hchain.2
    constructor
    · rw [run_cons, ih1, hstep]
    · intro k hw hk
      cases k with
      | zero =>
        simp only [List.getElem?_cons_zero, Option.some.injEq] at hk
        rw [stateAfter_zero, ← hk]
        exact hclosed
      | succ k =>
        rw [List.getElem?_cons_succ] at hk
        rw [stateAfter_cons_succ]
        exact ih2 k hw hk

/-- In exact arithmetic the filter update keeps a value of `[0, 1]` inside `[0, 1]`. -/
theorem lowPass_exact_range (a : Bool) (f : ℚ) (h0 : 0 ≤ f) (h1 : f ≤ 1) :
    0 ≤ lowPass id a f ∧ lowPass id a f ≤ 1 := by
  cases a <;> simp only [lowPass, alpha, ofBool, id] <;> constructor <;> norm_num <;> linarith

/-- One invocation leaves a position in the range of a `long` in that range. -/
theorem encoderISR_position_range (fl : ℚ → ℚ) (s : Decoder) (hw : Reading)
    (h : LONG_MIN ≤ s.encoderPosition ∧ s.encoderPosition ≤ LONG_MAX) :
    LONG_MIN ≤ (encoderISR fl s hw).encoderPosition ∧
      (encoderISR fl s hw).encoderPosition ≤ LONG_MAX := by
  rcases encoderISR_position_cases fl s hw with h1 | h1 | h1 <;> rw [h1]
  · exact h
  · exact wrapLong_range _
  · exact wrapLong_range _

/-- Every state reachable from the initial state holds a position in the range of a
`long`. -/
theorem reachable_position_range (fl : ℚ → ℚ) (s : Decoder) (hs : Reachable fl s) :
    LONG_MIN ≤ s.encoderPosition ∧ s.encoderPosition ≤ LONG_MAX := by
  obtain ⟨hws, rfl⟩ := hs
  have key : ∀ (l : List Reading) (t : Decoder),
      (LONG_MIN ≤ t.encoderPosition ∧ t.encoderPosition ≤ LONG_MAX) →
      LONG_MIN ≤ (run fl t l).encoderPosition ∧ (run fl t l).encoderPosition ≤ LONG_MAX := by
    intro l
    induction l with
    | nil => exact fun t h => h
    | cons hw l ih => exact fun t h => ih _ (encoderISR_position_range fl t hw h)
  exact key hws initial (by decide)

/-- At `LONG_MAX` a counted edge with channel B LOW wraps the position to `LONG_MIN`, and at
`LONG_MIN` one with channel B HIGH wraps it to `LONG_MAX`, as the 32-bit counter of the
compiled routine does. -/
theorem encoderISR_overflow :
    (encoderISR id ⟨2147483647, false, 1 / 2, 0⟩ ⟨100, true, false⟩).encoderPosition =
      -2147483648 ∧
    (encoderISR id ⟨-2147483648, false, 1 / 2, 0⟩ ⟨100, true, true⟩).encoderPosition =
      2147483647 := by
  constructor <;>
    norm_num [encoderISR, gateOpen, usub, ULONG_RANGE, debounceInterval, lowPass, alpha,
      ofBool, risingEdge, wrapLong]

/-! ## C1: direction rule -/

/-- C1 (direction rule of `encoderISR`): for every decoder state and every invocation that
passes the debounce gate and recognises a validated rising edge (the filtered value after the
update is above 0.5 and `lastStateA` was false), the position after the invocation is the
position before plus 1 when channel B reads LOW and minus 1 when channel B reads HIGH.
The increment and decrement are those of the 32-bit `long`: for every state the result is
the position plus or minus 1 as stored in a `long`, which is the integer plus 1 for every
position below `LONG_MAX` and the integer minus 1 for every position above `LONG_MIN`.
Holds for every rounding of the float arithmetic. -/
theorem encoderISR_direction (fl : ℚ → ℚ) (s : Decoder) (hw : Reading)
    (hgate : gateOpen s hw = true)
    (habove : (encoderISR fl s hw).filteredStateA > 1 / 2)
    (hlast : s.lastStateA = false) :
    (hw.pinB = false →
      (encoderISR fl s hw).encoderPosition = wrapLong (s.encoderPosition + 1)) ∧
    (hw.pinB = true →
      (encoderISR fl s hw).encoderPosition = wrapLong (s.encoderPosition - 1)) ∧
    (hw.pinB = false → LONG_MIN ≤ s.encoderPosition → s.encoderPosition < LONG_MAX →
      (encoderISR fl s hw).encoderPosition = s.encoderPosition + 1) ∧
    (hw.pinB = true → LONG_MIN < s.encoderPosition → s.encoderPosition ≤ LONG_MAX →
      (encoderISR fl s hw).encoderPosition = s.encoderPosition - 1) := by
  have hedge : risingEdge (lowPass fl hw.pinA s.filteredStateA) s.lastStateA = true := by
    rw [encoderISR_open fl s hw hgate] at habove
    exact (risingEdge_iff _ _).2 ⟨habove, hlast⟩
  rw [position_of_edge fl s hw hgate hedge]
  refine ⟨?_, ?_, ?_, ?_⟩
  · intro hb
    simp [hb]
  · intro hb
    simp [hb]
  · intro hb hlo hhi
    simp only [hb, if_true]
    exact wrapLong_of_range _ (by omega) (by omega)
  · intro hb hlo hhi
    simp only [hb, Bool.true_eq_false, if_false]
    exact wrapLong_of_range _ (by omega) (by omega)

/-- Witness for C1: a state whose filtered value is 1/2, sampled HIGH with B LOW after 100 µs. -/
theorem encoderISR_direction_witness :
    (encoderISR id ⟨7, false, 1 / 2, 0⟩ ⟨100, true, false⟩).encoderPosition = 7 + 1 :=
  (encoderISR_direction id ⟨7, false, 1 / 2, 0⟩ ⟨100, true, false⟩
    (by decide)
    (by norm_num [encoderISR, gateOpen, usub, ULONG_RANGE, debounceInterval, lowPass, alpha,
      ofBool])
    rfl).2.2.1 rfl (by decide) (by decide)

/-! ## C2: a single isolated transition -/

/-- The first accepted HIGH sample moves the filtered value from 0 to at most 1/2, for every
rounding. -/
theorem lowPass_first_sample (fl : ℚ → ℚ) (hfl : IsRounding fl) :
    lowPass fl true 0 ≤ 1 / 2 := by
  have ha : alpha fl ≤ 1 / 2 := by
    have := hfl.mono (show (1 / 10 : ℚ) ≤ 1 / 2 by norm_num)
    rw [hfl.half] at this
    exact this
  have hb : fl (alpha fl) ≤ 1 / 2 := by
    have := hfl.mono ha
    rw [hfl.half] at this
    exact this
  have hc : fl (fl (alpha fl)) ≤ 1 / 2 := by
    have := hfl.mono hb
    rw [hfl.half] at this
    exact this
  simpa [lowPass, ofBool, hfl.zero] using hc

/-- C2, as stated, fails: from the initial state one accepted invocation with channel A HIGH
leaves the position at 0, so it is neither 1 (B LOW) nor −1 (B HIGH). -/
theorem single_transition_counterexample :
    gateOpen initial ⟨100, true, false⟩ = true ∧
    (encoderISR id initial ⟨100, true, false⟩).encoderPosition ≠ 1 ∧
    (encoderISR id initial ⟨100, true, true⟩).encoderPosition ≠ -1 := by
  refine ⟨by decide, ?_, ?_⟩ <;>
    norm_num [encoderISR, gateOpen, usub, ULONG_RANGE, debounceInterval, initial, lowPass,
      alpha, ofBool, risingEdge]

/-- C2 amended: from the initial state, one invocation at a timestamp more than 50 µs after
the initial `lastInterruptTime = 0` with channel A reading HIGH passes the gate but leaves
`encoderPosition` equal to 0 and `lastStateA` false whatever channel B reads, because the
filtered value only reaches `alpha` (at most 1/2); in exact arithmetic it is exactly 1/10. -/
theorem single_transition_not_counted (fl : ℚ → ℚ) (hfl : IsRounding fl) (t : Nat) (b : Bool)
    (hlo : debounceInterval < t) (hhi : t < ULONG_RANGE) :
    gateOpen initial ⟨t, true, b⟩ = true ∧
    (encoderISR fl initial ⟨t, true, b⟩).encoderPosition = 0 ∧
    (encoderISR fl initial ⟨t, true, b⟩).lastStateA = false ∧
    (encoderISR id initial ⟨t, true, b⟩).filteredStateA = 1 / 10 := by
  have hgate : gateOpen initial ⟨t, true, b⟩ = true := by
    rw [gateOpen_iff]
    show debounceInterval < usub t 0
    rw [usub_of_le t 0 (Nat.zero_le _) hhi]
    simpa using hlo
  have hlow : ¬ (1 / 2 < lowPass fl true 0) := not_lt.mpr (lowPass_first_sample fl hfl)
  have hedge : risingEdge (lowPass fl true 0) false = false := by
    rw [Bool.eq_false_iff, Ne, risingEdge_iff]
    exact fun h => hlow h.1
  refine ⟨hgate, ?_, ?_, ?_⟩
  · rw [encoderISR_open fl _ _ hgate]
    simp [initial, hedge]
  · rw [encoderISR_open fl _ _ hgate]
    simpa [initial] using lowPass_first_sample fl hfl
  · rw [encoderISR_open id _ _ hgate]
    norm_num [initial, lowPass, alpha, ofBool]

/-- Witness for C2 amended: exact arithmetic, timestamp 100, channel B HIGH. -/
theorem single_transition_not_counted_witness :
    (encoderISR id initial ⟨100, true, true⟩).encoderPosition = 0 :=
  (single_transition_not_counted id isRounding_id 100 true (by decide) (by decide)).2.1

/-! ## C3: closed gate -/

/-- C3 (closed-gate frame): for every decoder state and every invocation whose timestamp is
`d ≤ 50` µs after `lastInterruptTime` (as a 32-bit clock value, so also across a wrap of the
clock), `filteredStateA`, `lastStateA` and `encoderPosition` are unchanged and
`lastInterruptTime` becomes the timestamp of the invocation. -/
theorem encoderISR_closed_frame (fl : ℚ → ℚ) (s : Decoder) (hw : Reading) (d : Nat)
    (hd : d ≤ debounceInterval)
    (ht : hw.micros = (s.lastInterruptTime + d) % ULONG_RANGE) :
    (encoderISR fl s hw).filteredStateA = s.filteredStateA ∧
    (encoderISR fl s hw).lastStateA = s.lastStateA ∧
    (encoderISR fl s hw).encoderPosition = s.encoderPosition ∧
    (encoderISR fl s hw).lastInterruptTime = hw.micros := by
  have hgate : gateOpen s hw = false := by
    rw [Bool.eq_false_iff, Ne, gateOpen_iff, ht,
      usub_elapsed _ d (lt_of_le_of_lt hd (by decide))]
    exact not_lt.mpr hd
  rw [encoderISR_closed fl s hw hgate]
  exact ⟨rfl, rfl, rfl, rfl⟩

/-- Witness for C3: an invocation exactly 50 µs after the previous one, in a state that is
armed to count (filtered value 1/2, channel A HIGH). -/
theorem encoderISR_closed_frame_witness :
    (encoderISR id ⟨7, false, 1 / 2, 1000⟩ ⟨1050, true, false⟩).filteredStateA = 1 / 2 ∧
    (encoderISR id ⟨7, false, 1 / 2, 1000⟩ ⟨1050, true, false⟩).lastStateA = false ∧
    (encoderISR id ⟨7, false, 1 / 2, 1000⟩ ⟨1050, true, false⟩).encoderPosition = 7 ∧
    (encoderISR id ⟨7, false, 1 / 2, 1000⟩ ⟨1050, true, false⟩).lastInterruptTime = 1050 :=
  encoderISR_closed_frame id ⟨7, false, 1 / 2, 1000⟩ ⟨1050, true, false⟩ 50 (by decide)
    (by decide)

/-! ## C4: one count per upward crossing -/

/-- C4 (a validated rising edge fires once per upward crossing): in every run from the
initial state, if invocation `i` changes the position and a later invocation `j` changes it
too, then some invocation `k` strictly between them leaves the filtered value at or below
0.5; and over a stretch of invocations `i..j` that all leave the filtered value above 0.5,
no invocation after the first changes the position.  Holds for every rounding. -/
theorem one_count_per_crossing (fl : ℚ → ℚ) (hws : List Reading) (i j : Nat)
    (hj : j < hws.length) :
    (i < j →
      (stateAfter fl initial hws (i + 1)).encoderPosition ≠
        (stateAfter fl initial hws i).encoderPosition →
      (stateAfter fl initial hws (j + 1)).encoderPosition ≠
        (stateAfter fl initial hws j).encoderPosition →
      ∃ k, i < k ∧ k < j ∧ (stateAfter fl initial hws (k + 1)).filteredStateA ≤ 1 / 2) ∧
    ((∀ k, i ≤ k → k ≤ j → 1 / 2 < (stateAfter fl initial hws (k + 1)).filteredStateA) →
      ∀ k, i < k → k ≤ j →
        (stateAfter fl initial hws (k + 1)).encoderPosition =
          (stateAfter fl initial hws k).encoderPosition) := by
  have hget : ∀ k, k ≤ j → ∃ hw, hws[k]? = some hw := fun k hk =>
    ⟨hws[k], List.getElem?_eq_getElem (lt_of_le_of_lt hk hj)⟩
  constructor
  · intro hij hi hjc
    obtain ⟨hwi, hgi⟩ := hget i hij.le
    obtain ⟨hwj, hgj⟩ := hget j le_rfl
    rw [stateAfter_succ fl initial hws i hwi hgi] at hi
    rw [stateAfter_succ fl initial hws j hwj hgj] at hjc
    have hafter := (changed_imp_edge fl _ _ hi).2.2.1
    rw [← stateAfter_succ fl initial hws i hwi hgi] at hafter
    have hbefore := (changed_imp_edge fl _ _ hjc).2.1
    have hcons := consistent_stateAfter fl hws j
    rw [Consistent, hbefore] at hcons
    have hlow : (stateAfter fl initial hws j).filteredStateA ≤ 1 / 2 := by
      have := hcons.symm
      simpa using this
    have hne : j ≠ i + 1 := by
      intro h
      rw [h] at hlow
      exact absurd hafter (not_lt.mpr hlow)
    refine ⟨j - 1, by omega, by omega, ?_⟩
    have : j - 1 + 1 = j := by omega
    rw [this]
    exact hlow
  · intro hall k hik hkj
    obtain ⟨hwk, hgk⟩ := hget k hkj
    rw [stateAfter_succ fl initial hws k hwk hgk]
    apply unchanged_of_last
    have hprev := hall (k - 1) (by omega) (by omega)
    have : k - 1 + 1 = k := by omega
    rw [this] at hprev
    have hcons := consistent_stateAfter fl hws k
    rw [Consistent] at hcons
    rw [hcons]
    simpa using hprev

/-- Witness for C4 on `crossingRun`: invocations 6 and 10 change the position and an
invocation between them leaves the filtered value at or below 0.5; invocations 6 to 8 all
leave it above 0.5 and invocations 7 and 8 do not change the position. -/
theorem one_count_per_crossing_witness :
    (∃ k, 6 < k ∧ k < 10 ∧ (stateAfter id initial crossingRun (k + 1)).filteredStateA ≤ 1 / 2) ∧
    (∀ k, 6 < k → k ≤ 8 →
      (stateAfter id initial crossingRun (k + 1)).encoderPosition =
        (stateAfter id initial crossingRun k).encoderPosition) :=
  ⟨(one_count_per_crossing id crossingRun 6 10 (by decide)).1 (by decide) (by decide!)
      (by decide!),
    (one_count_per_crossing id crossingRun 6 8 (by decide)).2 (by
      intro k h1 h2
      interval_cases k <;> decide!)⟩

/-! ## C5: range of the filtered value -/

/-- C5 (filter range invariant): with the filter update in exact arithmetic (`alpha = 1/10`,
samples 0 or 1), `filteredStateA` lies in `[0, 1]` in the initial state and after every
invocation of every finite sequence of invocations, whatever the timestamps and levels. -/
theorem filteredStateA_range (hws : List Reading) (n : Nat) :
    0 ≤ (stateAfter id initial hws n).filteredStateA ∧
    (stateAfter id initial hws n).filteredStateA ≤ 1 := by
  have key : ∀ (l : List Reading) (s : Decoder),
      (0 ≤ s.filteredStateA ∧ s.filteredStateA ≤ 1) →
      0 ≤ (run id s l).filteredStateA ∧ (run id s l).filteredStateA ≤ 1 := by
    intro l
    induction l with
    | nil => exact fun s h => h
    | cons hw l ih =>
      intro s h
      rw [run_cons]
      apply ih
      cases hg : gateOpen s hw
      · rw [encoderISR_closed id s hw hg]
        exact h
      · rw [encoderISR_open id s hw hg]
        exact lowPass_exact_range hw.pinA s.filteredStateA h.1 h.2
  exact key _ initial (by simp [initial])

/-! ## C6: burst rejection -/

/-- C6 (burst rejection): for every decoder state and every sequence of invocations, ten or
any other number, in which each invocation is at most 50 µs after the one before it, no
invocation other than the first passes the debounce gate, and the position after the
sequence is the position before it, or that position incremented or decremented once as
a 32-bit `long`; so it differs from the position before by at most 1 whenever that
position is strictly between `LONG_MIN` and `LONG_MAX`.  Holds for every rounding. -/
theorem burst_rejected (fl : ℚ → ℚ) (s : Decoder) (hws : List Reading)
    (hburst : List.Chain' Within hws) :
    (∀ k hw, 1 ≤ k → hws[k]? = some hw → gateOpen (stateAfter fl s hws k) hw = false) ∧
    ((run fl s hws).encoderPosition = s.encoderPosition ∨
      (run fl s hws).encoderPosition = wrapLong (s.encoderPosition + 1) ∨
      (run fl s hws).encoderPosition = wrapLong (s.encoderPosition - 1)) ∧
    (LONG_MIN < s.encoderPosition → s.encoderPosition < LONG_MAX →
      |(run fl s hws).encoderPosition - s.encoderPosition| ≤ 1) := by
  suffices h : (∀ k hw, 1 ≤ k → hws[k]? = some hw →
        gateOpen (stateAfter fl s hws k) hw = false) ∧
      ((run fl s hws).encoderPosition = s.encoderPosition ∨
        (run fl s hws).encoderPosition = wrapLong (s.encoderPosition + 1) ∨
        (run fl s hws).encoderPosition = wrapLong (s.encoderPosition - 1)) from
    ⟨h.1, h.2, fun hlo hhi => abs_le_one_of_cases _ _ hlo hhi h.2⟩
  cases hws with
  | nil => exact ⟨fun k hw _ h => by simp at h, Or.inl rfl⟩
  | cons a rest =>
    obtain ⟨h1, h2⟩ := run_burst_tail fl rest (encoderISR fl s a) a
      (encoderISR_lastInterruptTime fl s a) hburst
    constructor
    · intro k hw hk hget
      obtain ⟨k, rfl⟩ : ∃ m, k = m + 1 := ⟨k - 1, by omega⟩
      rw [List.getElem?_cons_succ] at hget
      rw [stateAfter_cons_succ]
      exact h2 k hw hget
    · rw [run_cons, h1]
      exact encoderISR_position_cases fl s a

/-- Witness for C6: the ten readings of `burstRun`, 5 µs apart, arriving in a state that is
armed to count (filtered value 1/2, edge state false). -/
theorem burst_rejected_witness :
    (∀ k hw, 1 ≤ k → burstRun[k]? = some hw →
      gateOpen (stateAfter id ⟨7, false, 1 / 2, 0⟩ burstRun k) hw = false) ∧
    |(run id ⟨7, false, 1 / 2, 0⟩ burstRun).encoderPosition - 7| ≤ 1 :=
  have h := burst_rejected id ⟨7, false, 1 / 2, 0⟩ burstRun (by
    unfold burstRun
    repeat (first | exact List.Chain.nil | refine List.Chain.cons ⟨5, by decide, by decide⟩ ?_))
  ⟨h.1, h.2.2 (by decide) (by decide)⟩

/-! ## C7: one unit per threshold crossing -/

/-- C7 (exactly one unit per threshold crossing): for every decoder state reachable from the
initial state and every invocation, the position is incremented or decremented once (as a
32-bit `long`, so it does change) if the invocation passes the debounce gate and the
filtered value crosses the threshold (at most 0.5 before, above 0.5 after), and it is
unchanged in every other case; whenever the position before is strictly between `LONG_MIN`
and `LONG_MAX` the change at a crossing is exactly +1 or −1 and no invocation changes the
position by more than 1.  Holds for every rounding. -/
theorem unit_step_per_crossing (fl : ℚ → ℚ) (s : Decoder) (hw : Reading)
    (hs : Reachable fl s) :
    ((gateOpen s hw = true ∧ s.filteredStateA ≤ 1 / 2 ∧
        1 / 2 < (encoderISR fl s hw).filteredStateA) →
      ((encoderISR fl s hw).encoderPosition = wrapLong (s.encoderPosition + 1) ∨
        (encoderISR fl s hw).encoderPosition = wrapLong (s.encoderPosition - 1)) ∧
      (encoderISR fl s hw).encoderPosition ≠ s.encoderPosition ∧
      (LONG_MIN < s.encoderPosition → s.encoderPosition < LONG_MAX →
        ((encoderISR fl s hw).encoderPosition = s.encoderPosition + 1 ∨
          (encoderISR fl s hw).encoderPosition = s.encoderPosition - 1))) ∧
    (¬ (gateOpen s hw = true ∧ s.filteredStateA ≤ 1 / 2 ∧
        1 / 2 < (encoderISR fl s hw).filteredStateA) →
      (encoderISR fl s hw).encoderPosition = s.encoderPosition) ∧
    (LONG_MIN < s.encoderPosition → s.encoderPosition < LONG_MAX →
      |(encoderISR fl s hw).encoderPosition - s.encoderPosition| ≤ 1) := by
  obtain ⟨hws, rfl⟩ := hs
  have hcons : Consistent (run fl initial hws) := consistent_run fl hws initial consistent_initial
  refine ⟨?_, ?_, encoderISR_position_abs fl _ hw⟩
  · rintro ⟨hg, hlow, hhigh⟩
    have hlast : (run fl initial hws).lastStateA = false := by
      rw [hcons]
      simpa using hlow
    have hedge : risingEdge (lowPass fl hw.pinA (run fl initial hws).filteredStateA)
        (run fl initial hws).lastStateA = true := by
      rw [encoderISR_open fl _ hw hg] at hhigh
      exact (risingEdge_iff _ _).2 ⟨hhigh, hlast⟩
    rw [position_of_edge fl _ hw hg hedge]
    have hne := wrapLong_succ_ne (run fl initial hws).encoderPosition
    cases hw.pinB
    · refine ⟨Or.inl (by simp), by simpa using hne.1, fun hlo hhi => Or.inl ?_⟩
      simp only [if_true]
      exact wrapLong_of_range _ (by omega) (by omega)
    · refine ⟨Or.inr (by simp), by simpa using hne.2, fun hlo hhi => Or.inr ?_⟩
      simp only [Bool.true_eq_false, if_false]
      exact wrapLong_of_range _ (by omega) (by omega)
  · intro hnot
    by_contra hne
    obtain ⟨hg, hlast, hhigh, _⟩ := changed_imp_edge fl _ hw hne
    apply hnot
    refine ⟨hg, ?_, hhigh⟩
    rw [hcons] at hlast
    simpa using hlast

/-- Witness for C7: after the first six HIGH samples of `crossingRun` the filtered value is
0.468559; the seventh accepted HIGH sample crosses the threshold and moves the position by
one unit. -/
theorem unit_step_per_crossing_witness :
    (encoderISR id (run id initial (crossingRun.take 6)) ⟨700, true, false⟩).encoderPosition =
        (run id initial (crossingRun.take 6)).encoderPosition + 1 ∨
    (encoderISR id (run id initial (crossingRun.take 6)) ⟨700, true, false⟩).encoderPosition =
        (run id initial (crossingRun.take 6)).encoderPosition - 1 :=
  ((unit_step_per_crossing id (run id initial (crossingRun.take 6)) ⟨700, true, false⟩
    ⟨crossingRun.take 6, rfl⟩).1 (by decide!)).2.2 (by decide!) (by decide!)

/-! ## C8: debounce boundary -/

/-- C8 (debounce boundary): for every decoder state and every invocation whose timestamp is
`lastInterruptTime + d` (a 32-bit clock value, no wrap in between), the invocation is
accepted for decoding, i.e. the filter update and the edge-state update happen, if and only
if `d > 50`; at `d = 50` it is rejected and the filter and edge state are untouched, at
`d = 51` it is accepted. -/
theorem debounce_boundary (fl : ℚ → ℚ) (s : Decoder) (hw : Reading) (d : Nat)
    (ht : hw.micros = s.lastInterruptTime + d) (hword : hw.micros < ULONG_RANGE) :
    (gateOpen s hw = true ↔ 50 < d) ∧
    (d = 50 → gateOpen s hw = false) ∧
    (d = 51 → gateOpen s hw = true) ∧
    (50 < d →
      (encoderISR fl s hw).filteredStateA = lowPass fl hw.pinA s.filteredStateA ∧
      (encoderISR fl s hw).lastStateA = decide (lowPass fl hw.pinA s.filteredStateA > 1 / 2)) ∧
    (d ≤ 50 →
      (encoderISR fl s hw).filteredStateA = s.filteredStateA ∧
      (encoderISR fl s hw).lastStateA = s.lastStateA ∧
      (encoderISR fl s hw).encoderPosition = s.encoderPosition) := by
  have hsub : usub hw.micros s.lastInterruptTime = d := by
    rw [usub_of_le _ _ (by omega) hword]
    omega
  have hiff : gateOpen s hw = true ↔ 50 < d := by
    rw [gateOpen_iff, hsub]
    rfl
  refine ⟨hiff, ?_, ?_, ?_, ?_⟩
  · intro h
    rw [Bool.eq_false_iff, Ne, hiff]
    omega
  · intro h
    rw [hiff]
    omega
  · intro h
    rw [encoderISR_open fl s hw (hiff.2 h)]
    exact ⟨rfl, rfl⟩
  · intro h
    have hg : gateOpen s hw = false := by
      rw [Bool.eq_false_iff, Ne, hiff]
      omega
    rw [encoderISR_closed fl s hw hg]
    exact ⟨rfl, rfl, rfl⟩

/-- Witness for C8: timestamp 1051 after `lastInterruptTime = 1000` is accepted. -/
theorem debounce_boundary_witness :
    gateOpen ⟨7, false, 1 / 2, 1000⟩ ⟨1051, true, false⟩ = true :=
  (debounce_boundary id ⟨7, false, 1 / 2, 1000⟩ ⟨1051, true, false⟩ 51 (by decide)
    (by decide)).2.2.1 rfl

/-! ## C9: one iteration of the reporter -/

/-- C9 (reporter step): for every remembered `lastPosition` and every snapshot, one
iteration of `loop` writes the snapshot (one line, appended) when it differs from
`lastPosition`, writes nothing when it is equal, and in both cases leaves `lastPosition`
equal to the snapshot; so a second iteration on the same snapshot writes nothing. -/
theorem loop_step (r : Reporter) (p : Int) :
    ((loop r p).serial = r.serial ++ [p] ↔ p ≠ r.lastPosition) ∧
    ((loop r p).serial = r.serial ↔ p = r.lastPosition) ∧
    (loop r p).lastPosition = p ∧
    (loop (loop r p) p).serial = (loop r p).serial := by
  by_cases h : p = r.lastPosition
  · subst h
    have h1 : loop r r.lastPosition = r := by simp [loop]
    simp [h1]
  · have h1 : loop r p = { lastPosition := p, serial := r.serial ++ [p] } := by simp [loop, h]
    have h2 : loop { lastPosition := p, serial := r.serial ++ [p] } p =
        { lastPosition := p, serial := r.serial ++ [p] } := by simp [loop]
    rw [h1, h2]
    simp [h]

/-! ## C10: the reported sequence -/

theorem loops_cons (r : Reporter) (p : Int) (ps : List Int) :
    loops r (p :: ps) = loops (loop r p) ps := rfl

/-- The lines written by consecutive iterations are the snapshots that differ from their
predecessor, the predecessor of the first being the remembered `lastPosition`. -/
theorem loops_serial (ps : List Int) :
    ∀ r : Reporter, (loops r ps).serial = r.serial ++ keepChanges r.lastPosition ps := by
  induction ps with
  | nil => intro r; simp [loops, keepChanges]
  | cons p ps ih =>
    intro r
    rw [loops_cons, ih]
    by_cases h : p = r.lastPosition
    · simp [loop, keepChanges, h]
    · simp [loop, keepChanges, h]

/-- No element kept by `keepChanges` equals the element kept before it, nor the first
`prev`. -/
theorem keepChanges_chain (l : List Int) :
    ∀ prev : Int, List.Chain (fun a b => a ≠ b) prev (keepChanges prev l) := by
  induction l with
  | nil => intro prev; exact List.Chain.nil
  | cons x xs ih =>
    intro prev
    by_cases h : x = prev
    · simpa [keepChanges, h] using ih prev
    · simp only [keepChanges, h, if_false]
      exact List.Chain.cons (fun e => h e.symm) (ih x)

/-- The specification `dropRepeats` is the library function that removes consecutive
duplicates. -/
theorem dropRepeats_eq_destutter (l : List Int) :
    dropRepeats l = l.destutter (fun a b => a ≠ b) := by
  have key : ∀ (xs : List Int) (a : Int),
      a :: keepChanges a xs = List.destutter' (fun a b => a ≠ b) a xs := by
    intro xs
    induction xs with
    | nil => intro a; rfl
    | cons x xs ih =>
      intro a
      by_cases h : x = a
      · subst h
        simp [keepChanges, List.destutter', ih]
      · have h' : a ≠ x := fun e => h e.symm
        simp [keepChanges, List.destutter', h, h', ih]
  cases l with
  | nil => rfl
  | cons a xs => exact key xs a

/-- C10 (each new distinct value is reported exactly once): for every finite sequence of
snapshots seen by consecutive iterations of `loop` starting with `lastPosition = 0`, the
lines written are the list `0, p1, ..., pn` with every element equal to its immediate
predecessor deleted and the leading 0 dropped; no two consecutive lines are equal (and the
first line is not 0), and as long as the snapshots are 0 nothing is written. -/
theorem reported_sequence (ps : List Int) (n : Nat) :
    (loops Reporter.start ps).serial = (dropRepeats (0 :: ps)).tail ∧
    List.Chain (fun a b => a ≠ b) 0 (loops Reporter.start ps).serial ∧
    (loops Reporter.start (List.replicate n 0)).serial = [] := by
  have h : ∀ qs : List Int, (loops Reporter.start qs).serial = keepChanges 0 qs := by
    intro qs
    rw [loops_serial]
    simp [Reporter.start]
  refine ⟨by rw [h]; rfl, by rw [h]; exact keepChanges_chain ps 0, ?_⟩
  rw [h]
  induction n with
  | zero => rfl
  | succ n ih => simpa [List.replicate_succ, keepChanges] using ih

/-! ## C11: the re-arm step -/

/-- C11 (re-arm step regardless of the gate): for every decoder state the program can be
in, i.e. every state reachable from the initial state, and every invocation, whether or not
it passes the debounce gate, `lastStateA` after the invocation equals the truth value of
(`filteredStateA` after the invocation `> 0.5`).  An accepted invocation recomputes
`lastStateA` from the new filtered value; a rejected one changes neither of the two, so the
equation carries over.  Holds for every rounding. -/
theorem rearm_step (fl : ℚ → ℚ) (s : Decoder) (hw : Reading) (hs : Reachable fl s) :
    (encoderISR fl s hw).lastStateA = decide ((encoderISR fl s hw).filteredStateA > 1 / 2) ∧
    (gateOpen s hw = false →
      (encoderISR fl s hw).lastStateA = s.lastStateA ∧
      (encoderISR fl s hw).filteredStateA = s.filteredStateA) := by
  obtain ⟨pre, rfl⟩ := hs
  refine ⟨consistent_encoderISR fl _ hw (consistent_run fl pre initial consistent_initial), ?_⟩
  intro hg
  rw [encoderISR_closed fl _ hw hg]
  exact ⟨rfl, rfl⟩

/-- Witness for C11: after the first seven readings of `crossingRun` the filtered value is
above 0.5 and `lastStateA` is true; a LOW reading 10 µs later is rejected and the equation
still holds. -/
theorem rearm_step_witness :
    gateOpen (run id initial (crossingRun.take 7)) ⟨710, false, false⟩ = false ∧
    (encoderISR id (run id initial (crossingRun.take 7)) ⟨710, false, false⟩).lastStateA =
      decide ((encoderISR id (run id initial (crossingRun.take 7))
        ⟨710, false, false⟩).filteredStateA > 1 / 2) :=
  ⟨by decide!,
    (rearm_step id (run id initial (crossingRun.take 7)) ⟨710, false, false⟩
      ⟨crossingRun.take 7, rfl⟩).1⟩

/-! ## C14: edge-state consistency -/

/-- C14 (edge-state consistency invariant): in the initial state and after every invocation
of every run from the initial state, gate open or closed, `lastStateA` is true if and only if
`filteredStateA > 0.5`.  Holds for every rounding. -/
theorem edge_state_consistent (fl : ℚ → ℚ) (hws : List Reading) (n : Nat) :
    (stateAfter fl initial hws n).lastStateA = true ↔
      (stateAfter fl initial hws n).filteredStateA > 1 / 2 := by
  have h := consistent_stateAfter fl hws n
  rw [Consistent] at h
  rw [h]
  simp

/-! ## C17: the debounce gate across a wrap of the clock -/

/-- C17 (debounce gate across timer wraparound): with `micros()` and `lastInterruptTime`
32-bit unsigned values, for every `lastInterruptTime` and every true elapsed time
`d < 2^32`, an invocation with timestamp `(lastInterruptTime + d) mod 2^32` passes the gate
if and only if `d > 50`, also when the clock wrapped and the timestamp is numerically
smaller than `lastInterruptTime`. -/
theorem gate_across_wrap (s : Decoder) (hw : Reading) (d : Nat)
    (hd : d < ULONG_RANGE)
    (ht : hw.micros = (s.lastInterruptTime + d) % ULONG_RANGE) :
    gateOpen s hw = true ↔ 50 < d := by
  rw [gateOpen_iff, ht, usub_elapsed _ d hd]
  rfl

/-- Witness for C17: 60 µs elapse across the wrap, from 4294967290 to 54, and the
invocation is accepted. -/
theorem gate_across_wrap_witness :
    (54 : Nat) < 4294967290 ∧ gateOpen ⟨0, false, 0, 4294967290⟩ ⟨54, true, false⟩ = true :=
  ⟨by decide,
    (gate_across_wrap ⟨0, false, 0, 4294967290⟩ ⟨54, true, false⟩ 60 (by decide)
      (by decide)).2 (by decide)⟩

/-! ## C12: a stuck channel A -/

/-- The rounded constants of the filter: `alpha` lies in `[0, 1/2]` and the rounded
`1 - alpha` in `[1/2, 1]`. -/
theorem coeff_bounds (fl : ℚ → ℚ) (hfl : IsRounding fl) :
    0 ≤ alpha fl ∧ alpha fl ≤ 1 / 2 ∧ 1 / 2 ≤ fl (1 - alpha fl) ∧ fl (1 - alpha fl) ≤ 1 := by
  have h0 : 0 ≤ alpha fl := by
    have := hfl.mono (show (0 : ℚ) ≤ 1 / 10 by norm_num)
    rwa [hfl.zero] at this
  have h1 : alpha fl ≤ 1 / 2 := by
    have := hfl.mono (show (1 / 10 : ℚ) ≤ 1 / 2 by norm_num)
    rwa [hfl.half] at this
  have h2 : 1 / 2 ≤ fl (1 - alpha fl) := by
    have := hfl.mono (show (1 / 2 : ℚ) ≤ 1 - alpha fl by linarith)
    rwa [hfl.half] at this
  have h3 : fl (1 - alpha fl) ≤ 1 := by
    have := hfl.mono (show 1 - alpha fl ≤ (1 : ℚ) by linarith)
    rwa [hfl.one] at this
  exact ⟨h0, h1, h2, h3⟩

/-- The filter update is monotone in the old filtered value, for every rounding. -/
theorem lowPass_mono (fl : ℚ → ℚ) (hfl : IsRounding fl) (a : Bool) :
    Monotone (lowPass fl a) := by
  intro f g hfg
  obtain ⟨_, _, hc, _⟩ := coeff_bounds fl hfl
  unfold lowPass
  apply hfl.mono
  apply add_le_add_left
  apply hfl.mono
  exact mul_le_mul_of_nonneg_left hfg (by linarith)

/-- A LOW sample does not lift a filtered value of at most 0.5 above 0.5. -/
theorem lowPass_low_le_half (fl : ℚ → ℚ) (hfl : IsRounding fl) (f : ℚ) (h : f ≤ 1 / 2) :
    lowPass fl false f ≤ 1 / 2 := by
  obtain ⟨_, _, hc, hc1⟩ := coeff_bounds fl hfl
  have hprod : fl (1 - alpha fl) * f ≤ 1 / 2 := by
    rcases le_total 0 f with hf | hf
    · nlinarith
    · nlinarith
  have h1 : fl (fl (1 - alpha fl) * f) ≤ 1 / 2 := by
    have := hfl.mono hprod
    rwa [hfl.half] at this
  have h2 : fl (fl (fl (1 - alpha fl) * f)) ≤ 1 / 2 := by
    have := hfl.mono h1
    rwa [hfl.half] at this
  simpa [lowPass, ofBool, hfl.zero] using h2

/-- A saturated state stays saturated and keeps its position under another sample of the
stuck level. -/
theorem saturated_step (fl : ℚ → ℚ) (hfl : IsRounding fl) (lvl : Bool) (s : Decoder)
    (hw : Reading) (hs : Saturated fl lvl s) (hlvl : hw.pinA = lvl) :
    Saturated fl lvl (encoderISR fl s hw) ∧
      (encoderISR fl s hw).encoderPosition = s.encoderPosition := by
  refine ⟨?_, unchanged_of_last fl s hw hs.1⟩
  obtain ⟨h1, h2, h3⟩ := hs
  cases hg : gateOpen s hw
  · rw [encoderISR_closed fl s hw hg]
    exact ⟨h1, h2, h3⟩
  · rw [encoderISR_open fl s hw hg, hlvl]
    have habove : 1 / 2 < lowPass fl lvl s.filteredStateA := lt_of_lt_of_le h2 h3
    exact ⟨by simpa using habove, habove, lowPass_mono fl hfl lvl h3⟩

theorem saturated_run (fl : ℚ → ℚ) (hfl : IsRounding fl) (lvl : Bool) (hws : List Reading) :
    ∀ s : Decoder, Saturated fl lvl s → (∀ hw ∈ hws, hw.pinA = lvl) →
      (run fl s hws).encoderPosition = s.encoderPosition := by
  induction hws with
  | nil => exact fun s _ _ => rfl
  | cons hw rest ih =>
    intro s hs hall
    obtain ⟨h1, h2⟩ := saturated_step fl hfl lvl s hw hs (hall hw (List.mem_cons_self _ _))
    rw [run_cons, ih _ h1 (fun x hx => hall x (List.mem_cons_of_mem _ hx)), h2]

theorem saturated_stateAfter (fl : ℚ → ℚ) (hfl : IsRounding fl) (lvl : Bool)
    (hws : List Reading) (s : Decoder) (hs : Saturated fl lvl s)
    (hall : ∀ hw ∈ hws, hw.pinA = lvl) (n : Nat) :
    (stateAfter fl s hws n).encoderPosition = s.encoderPosition :=
  saturated_run fl hfl lvl _ s hs (fun x hx => hall x (List.mem_of_mem_take hx))

/-- An invocation that counts, in a state whose edge state agrees with the filtered value,
leaves a saturated state. -/
theorem changed_saturated (fl : ℚ → ℚ) (hfl : IsRounding fl) (s : Decoder) (hw : Reading)
    (hs : Consistent s)
    (h : (encoderISR fl s hw).encoderPosition ≠ s.encoderPosition) :
    Saturated fl hw.pinA (encoderISR fl s hw) := by
  obtain ⟨hg, hlast, habove, hnew⟩ := changed_imp_edge fl s hw h
  have hlow : s.filteredStateA ≤ 1 / 2 := by
    rw [Consistent, hlast] at hs
    simpa using hs.symm
  refine ⟨hnew, habove, ?_⟩
  rw [encoderISR_open fl s hw hg] at habove ⊢
  exact lowPass_mono fl hfl hw.pinA (le_trans hlow (le_of_lt habove))

/-- A LOW sample never counts in a state whose edge state agrees with the filtered value. -/
theorem low_sample_no_count (fl : ℚ → ℚ) (hfl : IsRounding fl) (s : Decoder) (hw : Reading)
    (hs : Consistent s) (hlow : hw.pinA = false) :
    (encoderISR fl s hw).encoderPosition = s.encoderPosition := by
  by_contra h
  obtain ⟨hg, hlast, habove, _⟩ := changed_imp_edge fl s hw h
  have hf : s.filteredStateA ≤ 1 / 2 := by
    rw [Consistent, hlast] at hs
    simpa using hs.symm
  rw [encoderISR_open fl s hw hg, hlow] at habove
  exact absurd habove (not_lt.mpr (lowPass_low_le_half fl hfl _ hf))

/-- Under a stuck channel A, from a state whose edge state agrees with the filtered value:
once an invocation has counted no later one counts, and the position is incremented or
decremented at most once. -/
theorem stuck_run (fl : ℚ → ℚ) (hfl : IsRounding fl) (lvl : Bool) (hws : List Reading) :
    ∀ s : Decoder, Consistent s → (∀ hw ∈ hws, hw.pinA = lvl) →
      (∀ i j, i < j →
        (stateAfter fl s hws (i + 1)).encoderPosition ≠
          (stateAfter fl s hws i).encoderPosition →
        (stateAfter fl s hws (j + 1)).encoderPosition =
          (stateAfter fl s hws j).encoderPosition) ∧
      ((run fl s hws).encoderPosition = s.encoderPosition ∨
        (run fl s hws).encoderPosition = wrapLong (s.encoderPosition + 1) ∨
        (run fl s hws).encoderPosition = wrapLong (s.encoderPosition - 1)) := by
  induction hws with
  | nil =>
    intro s _ _
    refine ⟨fun i j _ h => ?_, Or.inl rfl⟩
    simp [stateAfter] at h
  | cons hw rest ih =>
    intro s hs hall
    have hlvl : hw.pinA = lvl := hall hw (List.mem_cons_self _ _)
    have hrest : ∀ x ∈ rest, x.pinA = lvl := fun x hx => hall x (List.mem_cons_of_mem _ hx)
    obtain ⟨ih1, ih2⟩ := ih (encoderISR fl s hw) (consistent_encoderISR fl s hw hs) hrest
    by_cases hch : (encoderISR fl s hw).encoderPosition = s.encoderPosition
    · constructor
      · intro i j hij hi
        obtain ⟨j, rfl⟩ : ∃ m, j = m + 1 := ⟨j - 1, by omega⟩
        cases i with
        | zero =>
          rw [stateAfter_cons_succ, stateAfter_zero, stateAfter_zero] at hi
          exact absurd hch hi
        | succ i =>
          rw [stateAfter_cons_succ, stateAfter_cons_succ] at hi ⊢
          exact ih1 i j (by omega) hi
      · rw [run_cons, ← hch]
        exact ih2
    · have hsat : Saturated fl lvl (encoderISR fl s hw) := by
        have := changed_saturated fl hfl s hw hs hch
        rwa [hlvl] at this
      constructor
      · intro i j hij _
        obtain ⟨j, rfl⟩ : ∃ m, j = m + 1 := ⟨j - 1, by omega⟩
        rw [stateAfter_cons_succ, stateAfter_cons_succ,
          saturated_stateAfter fl hfl lvl rest _ hsat hrest,
          saturated_stateAfter fl hfl lvl rest _ hsat hrest]
      · rw [run_cons, saturated_run fl hfl lvl rest _ hsat hrest]
        exact encoderISR_position_cases fl s hw

/-- Under a channel A stuck LOW, from a state whose edge state agrees with the filtered
value, the position never changes. -/
theorem stuck_low_run (fl : ℚ → ℚ) (hfl : IsRounding fl) (hws : List Reading) :
    ∀ s : Decoder, Consistent s → (∀ hw ∈ hws, hw.pinA = false) →
      (run fl s hws).encoderPosition = s.encoderPosition := by
  induction hws with
  | nil => exact fun s _ _ => rfl
  | cons hw rest ih =>
    intro s hs hall
    rw [run_cons, ih _ (consistent_encoderISR fl s hw hs)
      (fun x hx => hall x (List.mem_cons_of_mem _ hx))]
    exact low_sample_no_count fl hfl s hw hs (hall hw (List.mem_cons_self _ _))

/-- C12 (a stuck pin degrades to no further edges): for every decoder state reachable from
the initial state and every following finite sequence of invocations in which channel A
reads the same level every time (any timestamps, any B levels), once an invocation has
changed the position no later invocation changes it, the position after the sequence is
the position before or that position incremented or decremented once as a 32-bit `long`
(so it differs by at most 1 whenever the position before is strictly between `LONG_MIN` and
`LONG_MAX`), and when the stuck level is LOW the position never changes.  The routine is a
total function of the state and the reading, so every invocation completes.  Holds for
every monotone rounding that fixes 0, 1/2 and 1. -/
theorem stuck_pin (fl : ℚ → ℚ) (hfl : IsRounding fl) (s : Decoder) (hs : Reachable fl s)
    (lvl : Bool) (hws : List Reading) (hstuck : ∀ hw ∈ hws, hw.pinA = lvl) :
    (∀ i j, i < j →
      (stateAfter fl s hws (i + 1)).encoderPosition ≠
        (stateAfter fl s hws i).encoderPosition →
      (stateAfter fl s hws (j + 1)).encoderPosition =
        (stateAfter fl s hws j).encoderPosition) ∧
    ((run fl s hws).encoderPosition = s.encoderPosition ∨
      (run fl s hws).encoderPosition = wrapLong (s.encoderPosition + 1) ∨
      (run fl s hws).encoderPosition = wrapLong (s.encoderPosition - 1)) ∧
    (LONG_MIN < s.encoderPosition → s.encoderPosition < LONG_MAX →
      |(run fl s hws).encoderPosition - s.encoderPosition| ≤ 1) ∧
    (lvl = false → ∀ n, (stateAfter fl s hws n).encoderPosition = s.encoderPosition) := by
  have hcons : Consistent s := by
    obtain ⟨pre, rfl⟩ := hs
    exact consistent_run fl pre initial consistent_initial
  obtain ⟨h1, h2⟩ := stuck_run fl hfl lvl hws s hcons hstuck
  refine ⟨h1, h2, fun hlo hhi => abs_le_one_of_cases _ _ hlo hhi h2, ?_⟩
  intro hl n
  subst hl
  exact stuck_low_run fl hfl _ s hcons (fun x hx => hstuck x (List.mem_of_mem_take hx))

/-- Witness for C12: after the first six HIGH samples of `crossingRun`, three more
invocations with channel A stuck HIGH change the position once (at the first of them). -/
theorem stuck_pin_witness :
    (∀ i j, i < j →
      (stateAfter id (run id initial (crossingRun.take 6)) stuckRun (i + 1)).encoderPosition ≠
        (stateAfter id (run id initial (crossingRun.take 6)) stuckRun i).encoderPosition →
      (stateAfter id (run id initial (crossingRun.take 6)) stuckRun (j + 1)).encoderPosition =
        (stateAfter id (run id initial (crossingRun.take 6)) stuckRun j).encoderPosition) ∧
    |(run id (run id initial (crossingRun.take 6)) stuckRun).encoderPosition -
      (run id initial (crossingRun.take 6)).encoderPosition| ≤ 1 :=
  have h := stuck_pin id isRounding_id (run id initial (crossingRun.take 6))
    ⟨crossingRun.take 6, rfl⟩ true stuckRun (by decide)
  ⟨h.1, h.2.2.1 (by decide!) (by decide!)⟩

/-! ## C16: samples needed before the first count -/

theorem accepted_cons (fl : ℚ → ℚ) (s : Decoder) (hw : Reading) (rest : List Reading) :
    accepted fl s (hw :: rest) =
      (if gateOpen s hw then 1 else 0) + accepted fl (encoderISR fl s hw) rest := rfl

/-- In exact arithmetic an accepted sample of channel A reading HIGH moves the filtered
value `f` to `1/10 + 9/10 * f`, a sample reading LOW to `9/10 * f`. -/
theorem lowPass_exact (a : Bool) (f : ℚ) :
    lowPass id a f = 1 / 10 * ofBool a + 9 / 10 * f := by
  simp only [lowPass, alpha, id]
  ring

/-- Up to six factors of 9/10 leave more than 1/2. -/
theorem pow_nine_tenths (m : Nat) (hm : m ≤ 6) : (1 / 2 : ℚ) ≤ (9 / 10) ^ m := by
  have h := pow_le_pow_of_le_one (show (0 : ℚ) ≤ 9 / 10 by norm_num)
    (show (9 / 10 : ℚ) ≤ 1 by norm_num) hm
  have h6 : (1 / 2 : ℚ) ≤ (9 / 10) ^ 6 := by norm_num
  exact le_trans h6 h

/-- While fewer than seven samples have been accepted the position does not move: after `m`
accepted samples the filtered value is at most `1 - (9/10)^m`. -/
theorem few_samples_no_count (hws : List Reading) :
    ∀ (s : Decoder) (m : Nat), s.filteredStateA ≤ 1 - (9 / 10) ^ m →
      m + accepted id s hws < 7 → (run id s hws).encoderPosition = s.encoderPosition := by
  induction hws with
  | nil => exact fun s m _ _ => rfl
  | cons hw rest ih =>
    intro s m hf hlt
    rw [accepted_cons] at hlt
    rw [run_cons]
    cases hg : gateOpen s hw
    · rw [hg] at hlt
      have hstep := encoderISR_closed id s hw hg
      rw [ih (encoderISR id s hw) m (by rw [hstep]; exact hf) (by simpa using hlt), hstep]
    · rw [hg] at hlt
      have hnew : (encoderISR id s hw).filteredStateA ≤ 1 - (9 / 10) ^ (m + 1) := by
        rw [encoderISR_open id s hw hg]
        show lowPass id hw.pinA s.filteredStateA ≤ _
        rw [lowPass_exact, pow_succ]
        have hb : ofBool hw.pinA ≤ 1 := by cases hw.pinA <;> simp [ofBool]
        linarith
      rw [ih (encoderISR id s hw) (m + 1) hnew (by simp only [if_true] at hlt; omega)]
      by_contra hne
      have habove := (changed_imp_edge id s hw hne).2.2.1
      have hp := pow_nine_tenths (m + 1) (by simp only [if_true] at hlt; omega)
      linarith

/-- With channel A HIGH at every sample, the filtered value after `m` accepted samples is
exactly `1 - (9/10)^m`. -/
theorem highs_filtered (hws : List Reading) :
    ∀ (s : Decoder) (m : Nat), s.filteredStateA = 1 - (9 / 10) ^ m →
      (∀ hw ∈ hws, hw.pinA = true) →
      (run id s hws).filteredStateA = 1 - (9 / 10) ^ (m + accepted id s hws) := by
  induction hws with
  | nil => exact fun s m hf _ => by simpa [run_nil, accepted] using hf
  | cons hw rest ih =>
    intro s m hf hall
    have hrest : ∀ x ∈ rest, x.pinA = true := fun x hx => hall x (List.mem_cons_of_mem _ hx)
    rw [accepted_cons, run_cons]
    cases hg : gateOpen s hw
    · have hstep := encoderISR_closed id s hw hg
      rw [ih (encoderISR id s hw) m (by rw [hstep]; exact hf) hrest]
      simp
    · have hnew : (encoderISR id s hw).filteredStateA = 1 - (9 / 10) ^ (m + 1) := by
        rw [encoderISR_open id s hw hg]
        show lowPass id hw.pinA s.filteredStateA = _
        rw [lowPass_exact, hall hw (List.mem_cons_self _ _), hf, pow_succ]
        simp only [ofBool, if_true]
        ring
      rw [ih (encoderISR id s hw) (m + 1) hnew hrest]
      congr 2
      simp only [if_true]
      omega

/-- C16 (minimum samples before the first count): from the initial state, in exact
arithmetic, a sequence of invocations of which fewer than 7 pass the debounce gate leaves
the position at 0 whatever the A and B levels; and when all samples read channel A HIGH,
the invocation that is the 7th to pass the gate is the first to change the position, to 1
when channel B reads LOW and to −1 when it reads HIGH. -/
theorem first_count_at_seventh (hws : List Reading) (hw : Reading) :
    (accepted id initial hws < 7 → (run id initial hws).encoderPosition = 0) ∧
    ((∀ x ∈ hws, x.pinA = true) → hw.pinA = true → accepted id initial hws = 6 →
      gateOpen (run id initial hws) hw = true →
      (run id initial hws).encoderPosition = 0 ∧
      (run id initial (hws ++ [hw])).encoderPosition = if hw.pinB = false then 1 else -1) := by
  have hzero : initial.filteredStateA ≤ 1 - (9 / 10) ^ 0 := by simp [initial]
  have hfew : accepted id initial hws < 7 → (run id initial hws).encoderPosition = 0 := by
    intro h
    exact few_samples_no_count hws initial 0 hzero (by omega)
  refine ⟨hfew, ?_⟩
  intro hall hA hsix hg
  have hpos := hfew (by omega)
  refine ⟨hpos, ?_⟩
  have hf : (run id initial hws).filteredStateA = 1 - (9 / 10) ^ 6 := by
    have := highs_filtered hws initial 0 (by simp [initial]) hall
    rw [hsix] at this
    simpa using this
  have hlast : (run id initial hws).lastStateA = false := by
    have hc := consistent_run id hws initial consistent_initial
    rw [Consistent, hf] at hc
    rw [hc]
    norm_num
  have hedge : risingEdge (lowPass id hw.pinA (run id initial hws).filteredStateA)
      (run id initial hws).lastStateA = true := by
    rw [risingEdge_iff, lowPass_exact, hA, hf]
    refine ⟨?_, hlast⟩
    norm_num [ofBool]
  rw [run_snoc, position_of_edge id _ hw hg hedge, hpos]
  cases hw.pinB <;> simp [wrapLong]

/-- Witness for C16: the first six readings of `crossingRun` are accepted and leave the
position at 0; the seventh, accepted with channel B LOW, makes it 1. -/
theorem first_count_at_seventh_witness :
    (run id initial (crossingRun.take 6)).encoderPosition = 0 ∧
    (run id initial (crossingRun.take 6 ++ [⟨700, true, false⟩])).encoderPosition =
      if (⟨700, true, false⟩ : Reading).pinB = false then 1 else -1 :=
  (first_count_at_seventh (crossingRun.take 6) ⟨700, true, false⟩).2 (by decide) rfl
    (by decide!) (by decide!)

/-! ## C15: counting a clean square wave -/

theorem idealFiltered_even (m : Nat) :
    idealFiltered (2 * m) = 9 / 19 * (1 - (81 / 100) ^ m) := by
  have h1 : 2 * m % 2 = 0 := by omega
  have h2 : (2 * m + 1) / 2 = m := by omega
  simp [idealFiltered, h1, h2]

theorem idealFiltered_odd (m : Nat) :
    idealFiltered (2 * m + 1) = 10 / 19 * (1 - (81 / 100) ^ (m + 1)) := by
  have h1 : (2 * m + 1) % 2 = 1 := by omega
  have h2 : (2 * m + 1 + 1) / 2 = m + 1 := by omega
  simp [idealFiltered, h1, h2]

/-- The power `(81/100)^n` drops below 1/20 exactly from `n = 15` on. -/
theorem pow_q_lt (n : Nat) : (81 / 100 : ℚ) ^ n < 1 / 20 ↔ 15 ≤ n := by
  have h0 : (0 : ℚ) ≤ 81 / 100 := by norm_num
  have h1 : (81 / 100 : ℚ) ≤ 1 := by norm_num
  constructor
  · intro h
    by_contra hn
    have hle := pow_le_pow_of_le_one h0 h1 (show n ≤ 14 by omega)
    have h14 : (1 / 20 : ℚ) < (81 / 100) ^ 14 := by norm_num
    linarith
  · intro hn
    have hle := pow_le_pow_of_le_one h0 h1 hn
    have h15 : (81 / 100 : ℚ) ^ 15 < 1 / 20 := by norm_num
    linarith

theorem pow_q_pos (n : Nat) : (0 : ℚ) < (81 / 100) ^ n := by positivity

/-- An accepted HIGH sample after `2 * m` readings of a square wave: the filtered value
follows the closed form and the position moves exactly when this is HIGH sample 15 or
later. -/
theorem ideal_step_high (m : Nat) (s : Decoder) (hw : Reading) (hs : Ideal (2 * m) s)
    (hg : gateOpen s hw = true) (hA : hw.pinA = true) (hB : hw.pinB = false) :
    Ideal (2 * m + 1) (encoderISR id s hw) := by
  obtain ⟨hf, hl, hp⟩ := hs
  rw [idealFiltered_even] at hf
  have hq := pow_q_pos m
  have hlast : s.lastStateA = false := by
    rw [hl, hf]
    simp only [decide_eq_false_iff_not, not_lt, gt_iff_lt]
    linarith
  have hnew : lowPass id hw.pinA s.filteredStateA = 10 / 19 * (1 - (81 / 100) ^ (m + 1)) := by
    rw [lowPass_exact, hA, hf, pow_succ]
    simp only [ofBool, if_true]
    ring
  have hcount : (2 * m + 1 + 1) / 2 = m + 1 := by omega
  have hcount0 : (2 * m + 1) / 2 = m := by omega
  rw [hcount0] at hp
  rw [encoderISR_open id s hw hg]
  refine ⟨?_, rfl, ?_⟩
  · show lowPass id hw.pinA s.filteredStateA = _
    rw [hnew, idealFiltered_odd]
  · show (if risingEdge (lowPass id hw.pinA s.filteredStateA) s.lastStateA then
        if hw.pinB = false then wrapLong (s.encoderPosition + 1)
        else wrapLong (s.encoderPosition - 1)
      else s.encoderPosition) = _
    rw [hcount, hB, hp]
    by_cases h15 : 15 ≤ m + 1
    · have hedge : risingEdge (lowPass id hw.pinA s.filteredStateA) s.lastStateA = true := by
        rw [risingEdge_iff, hnew]
        refine ⟨?_, hlast⟩
        have := (pow_q_lt (m + 1)).2 h15
        linarith
      rw [hedge]
      simp only [if_true]
      rw [wrapLong_add]
      congr 1
      push_cast
      omega
    · have hedge : risingEdge (lowPass id hw.pinA s.filteredStateA) s.lastStateA = false := by
        rw [Bool.eq_false_iff, Ne, risingEdge_iff, hnew]
        rintro ⟨h, _⟩
        have hlt : (81 / 100 : ℚ) ^ (m + 1) < 1 / 20 := by linarith
        exact h15 ((pow_q_lt (m + 1)).1 hlt)
      rw [hedge]
      simp only [Bool.false_eq_true, if_false]
      congr 1
      push_cast
      omega

/-- An accepted LOW sample after `2 * m + 1` readings of a square wave: the filtered value
follows the closed form, drops to at most 9/19 and the position stays. -/
theorem ideal_step_low (m : Nat) (s : Decoder) (hw : Reading) (hs : Ideal (2 * m + 1) s)
    (hg : gateOpen s hw = true) (hA : hw.pinA = false) :
    Ideal (2 * m + 2) (encoderISR id s hw) := by
  obtain ⟨hf, hl, hp⟩ := hs
  rw [idealFiltered_odd] at hf
  have hq := pow_q_pos (m + 1)
  have hnew : lowPass id hw.pinA s.filteredStateA = 9 / 19 * (1 - (81 / 100) ^ (m + 1)) := by
    rw [lowPass_exact, hA, hf]
    simp only [ofBool, Bool.false_eq_true, if_false]
    ring
  have hcount : (2 * m + 2 + 1) / 2 = m + 1 := by omega
  have hcount0 : (2 * m + 1 + 1) / 2 = m + 1 := by omega
  rw [hcount0] at hp
  have hedge : risingEdge (lowPass id hw.pinA s.filteredStateA) s.lastStateA = false := by
    rw [Bool.eq_false_iff, Ne, risingEdge_iff, hnew]
    rintro ⟨h, _⟩
    linarith
  rw [encoderISR_open id s hw hg]
  refine ⟨?_, rfl, ?_⟩
  · show lowPass id hw.pinA s.filteredStateA = _
    have h2 : 2 * m + 2 = 2 * (m + 1) := by ring
    rw [hnew, h2, idealFiltered_even]
  · show (if risingEdge (lowPass id hw.pinA s.filteredStateA) s.lastStateA then
        if hw.pinB = false then wrapLong (s.encoderPosition + 1)
        else wrapLong (s.encoderPosition - 1)
      else s.encoderPosition) = _
    rw [hedge, hcount, hp]
    simp

/-- A reading spaced more than 50 µs after the stored timestamp passes the gate. -/
theorem gateOpen_spaced (s : Decoder) (hw : Reading)
    (h : Spaced s.lastInterruptTime hw.micros) : gateOpen s hw = true := by
  obtain ⟨d, hlo, hhi, ht⟩ := h
  rw [gateOpen_iff, ht, usub_elapsed _ d hhi]
  exact hlo

/-- One reading of a square wave takes the ideal state after `k` readings to the ideal
state after `k + 1`. -/
theorem ideal_step (k : Nat) (s : Decoder) (hw : Reading) (hs : Ideal k s)
    (hg : gateOpen s hw = true) (hA : hw.pinA = decide (k % 2 = 0))
    (hB : hw.pinA = true → hw.pinB = false) :
    Ideal (k + 1) (encoderISR id s hw) := by
  rcases Nat.even_or_odd' k with ⟨m, rfl | rfl⟩
  · have hA' : hw.pinA = true := by
      rw [hA]
      simp
    exact ideal_step_high m s hw hs hg hA' (hB hA')
  · have hA' : hw.pinA = false := by
      rw [hA]
      simp
      omega
    exact ideal_step_low m s hw hs hg hA'

/-- After `n` readings of a square wave the decoder is in the ideal state number `k + n`. -/
theorem ideal_stateAfter (hws : List Reading) :
    ∀ (k : Nat) (s : Decoder) (n : Nat), Ideal k s → SquareWave k s.lastInterruptTime hws →
      n ≤ hws.length → Ideal (k + n) (stateAfter id s hws n) := by
  induction hws with
  | nil =>
    intro k s n hs _ hn
    have : n = 0 := by simpa using hn
    subst this
    exact hs
  | cons hw rest ih =>
    intro k s n hs hwave hn
    cases n with
    | zero => exact hs
    | succ n =>
      obtain ⟨hsp, hA, hB, hrest⟩ := hwave
      have hg := gateOpen_spaced s hw hsp
      have hstep := ideal_step k s hw hs hg hA hB
      have hnext := ih (k + 1) (encoderISR id s hw) n hstep
        (by rw [encoderISR_lastInterruptTime]; exact hrest)
        (by simpa using hn)
      rw [stateAfter_cons_succ]
      have hk : k + (n + 1) = k + 1 + n := by omega
      rw [hk]
      exact hnext

theorem ideal_initial : Ideal 0 initial := by
  refine ⟨?_, ?_, ?_⟩ <;> simp [initial, idealFiltered, wrapLong]

/-- C15 (counting under ideal alternating input): from the initial state, for a run of
invocations each more than 50 µs after the one before (the first more than 50 µs after
time 0) whose channel-A samples alternate HIGH, LOW, HIGH, ... with channel B LOW at every
HIGH sample, in exact arithmetic, the position after the `n`-th HIGH sample is
`max 0 (n − 14)` as stored in the 32-bit `long`, which is `max 0 (n − 14)` itself for every
`n` up to `LONG_MAX + 14`: the first 14 rising edges are not counted and each one from the
15th on is counted once. -/
theorem square_wave_count (hws : List Reading) (n : Nat)
    (hwave : SquareWave 0 initial.lastInterruptTime hws)
    (hn : 1 ≤ n) (hlen : 2 * n - 1 ≤ hws.length) :
    (stateAfter id initial hws (2 * n - 1)).encoderPosition =
      wrapLong (max 0 ((n : Int) - 14)) ∧
    ((n : Int) ≤ LONG_MAX + 14 →
      (stateAfter id initial hws (2 * n - 1)).encoderPosition = max 0 ((n : Int) - 14)) := by
  have h := (ideal_stateAfter hws 0 initial (2 * n - 1) ideal_initial hwave hlen).2.2
  have hc : (0 + (2 * n - 1) + 1) / 2 = n := by omega
  rw [hc] at h
  refine ⟨h, fun hle => ?_⟩
  rw [h]
  apply wrapLong_of_range
  · unfold LONG_MIN
    omega
  · unfold LONG_MAX at *
    omega

/-- Witness for C15: on `squareWaveRun` the position after the 16th HIGH sample is 2. -/
theorem square_wave_count_witness :
    (stateAfter id initial squareWaveRun (2 * 16 - 1)).encoderPosition =
      max 0 (((16 : Nat) : Int) - 14) :=
  (square_wave_count squareWaveRun 16
    (by
      unfold squareWaveRun
      repeat (first
        | exact trivial
        | refine ⟨⟨100, by decide, by decide, by decide⟩, by decide, by decide, ?_⟩))
    (by decide) (by decide)).2 (by decide)

end Encoder
